import Mathlib

/-!
Verification development for the git-diff-viewer core: the diff parser
(`parseDiff`) and the split-view reconciler (`SplitHunk`) from
`src/App.jsx`, embedded shallowly in Lean.  Strings are handled through
their character lists; JavaScript `startsWith`, `substring` and the hunk
header regular expression are modelled explicitly below.
-/

namespace DiffViewer

/-- Kind of a parsed diff line (source field `type`):
`'context' | 'add' | 'delete' | 'no-newline'`. -/
inductive LineType where
  | context
  | add
  | delete
  | noNewline
deriving DecidableEq, Repr

/-- One parsed diff line: `{ content, type }` in the source. -/
structure DiffLine where
  content : String
  kind : LineType
deriving DecidableEq, Repr

/-- One hunk: `{ header, lines, oldStart, newStart }` in the source. -/
structure Hunk where
  header : String
  lines : List DiffLine
  oldStart : Nat
  newStart : Nat
deriving DecidableEq, Repr

/-- One file change: `{ header, oldName, newName, meta, hunks }`. -/
structure FileChange where
  header : String
  oldName : String
  newName : String
  meta : List String
  hunks : List Hunk
deriving DecidableEq, Repr

/-- Prefix test `startsChars pre cs`, modelling JavaScript
`String.startsWith` on character lists. -/
def startsChars : List Char → List Char → Bool
  | [], _ => true
  | _ :: _, [] => false
  | p :: ps, c :: cs => if p = c then startsChars ps cs else false

/-- JavaScript `s.startsWith(pre)`. -/
def strStarts (s pre : String) : Bool := startsChars pre.toList s.toList

/-- JavaScript `s.substring(n)`: drop the first `n` characters. -/
def strDrop (s : String) (n : Nat) : String := String.mk (s.toList.drop n)

/-- Numeric value of a digit list, as `parseInt` computes it on a string
of decimal digits. -/
def digitsVal (ds : List Char) : Nat :=
  ds.foldl (fun a c => a * 10 + (c.toNat - 48)) 0

/-- Consume a literal character sequence, returning the rest on success. -/
def dropLit : List Char → List Char → Option (List Char)
  | [], cs => some cs
  | _ :: _, [] => none
  | p :: ps, c :: cs => if p = c then dropLit ps cs else none

/-- Tail of the hunk-header pattern after the new-start digits:
`(?:,(\d+))? @@`, greedy group first, then the backtracked empty
alternative. -/
def matchTail2 (cs : List Char) : Option Unit :=
  (match cs with
   | ',' :: r =>
     let sp := r.span Char.isDigit
     if sp.1.isEmpty then none
     else (dropLit [' ', '@', '@'] sp.2).map (fun _ => ())
   | _ => none)
  <|> (dropLit [' ', '@', '@'] cs).map (fun _ => ())

/-- Tail after the old-start digits: `(?:,(\d+))? \+(\d+)` followed by
`matchTail2`; returns the new-start value.  The greedy optional count
group is tried first and the match falls back without it. -/
def matchTail1 (cs : List Char) : Option Nat :=
  let cont : List Char → Option Nat := fun rest =>
    match dropLit [' ', '+'] rest with
    | none => none
    | some r1 =>
      let sp := r1.span Char.isDigit
      if sp.1.isEmpty then none
      else (matchTail2 sp.2).map (fun _ => digitsVal sp.1)
  (match cs with
   | ',' :: r =>
     let sp := r.span Char.isDigit
     if sp.1.isEmpty then none else cont sp.2
   | _ => none)
  <|> cont cs

/-- Try the full pattern `@@ -(\d+)(?:,(\d+))? \+(\d+)(?:,(\d+))? @@`
anchored at the head of `cs`; returns `(oldStart, newStart)`. -/
def matchHunkAt (cs : List Char) : Option (Nat × Nat) :=
  match dropLit ['@', '@', ' ', '-'] cs with
  | none => none
  | some r =>
    let sp := r.span Char.isDigit
    if sp.1.isEmpty then none
    else (matchTail1 sp.2).map (fun n => (digitsVal sp.1, n))

/-- Leftmost unanchored match of the hunk-header pattern, as
`line.match(/@@ -(\d+)(?:,(\d+))? \+(\d+)(?:,(\d+))? @@/)` finds it. -/
def searchHunk : List Char → Option (Nat × Nat)
  | [] => none
  | c :: cs =>
    match matchHunkAt (c :: cs) with
    | some p => some p
    | none => searchHunk cs

/-- Result of the regex match on a hunk header line. -/
def hunkMatch (line : String) : Option (Nat × Nat) := searchHunk line.toList

/-- Line classification for hunk content lines, by first character:
`+` → add, `-` → delete, `\` → no-newline, else context. -/
def classify (line : String) : DiffLine :=
  { content := line,
    kind :=
      if strStarts line "+" then LineType.add
      else if strStarts line "-" then LineType.delete
      else if strStarts line "\\" then LineType.noNewline
      else LineType.context }

/-- Parser cursor state: emitted files, the open file, the open hunk. -/
structure PState where
  files : List FileChange
  currentFile : Option FileChange
  currentHunk : Option Hunk
deriving DecidableEq, Repr

/-- Append the open hunk, if any, to a file's hunk list. -/
def closeHunk (f : FileChange) : Option Hunk → FileChange
  | some h => { f with hunks := f.hunks ++ [h] }
  | none => f

/-- One iteration of the parser loop body over a single input line. -/
def parseLine (st : PState) (line : String) : PState :=
  if strStarts line "diff --git" then
    { files :=
        match st.currentFile with
        | some f => st.files ++ [closeHunk f st.currentHunk]
        | none => st.files,
      currentFile := some ⟨line, "", "", [], []⟩,
      currentHunk := none }
  else if strStarts line "--- a/" then
    match st.currentFile with
    | some f => { st with currentFile := some { f with oldName := strDrop line 6 } }
    | none => st
  else if strStarts line "+++ b/" then
    match st.currentFile with
    | some f => { st with currentFile := some { f with newName := strDrop line 6 } }
    | none => st
  else if strStarts line "@@ " then
    match st.currentFile with
    | some f =>
      let starts :=
        match hunkMatch line with
        | some p => p
        | none => (0, 0)
      { files := st.files,
        currentFile := some (closeHunk f st.currentHunk),
        currentHunk := some ⟨line, [], starts.1, starts.2⟩ }
    | none => st
  else
    match st.currentFile with
    | some f =>
      match st.currentHunk with
      | some h =>
        { st with currentHunk := some { h with lines := h.lines ++ [classify line] } }
      | none =>
        { st with currentFile := some { f with meta := f.meta ++ [line] } }
    | none => st

/-- Split a character stream at newline characters; `acc` holds the
characters of the current line in reverse. -/
def splitLinesAux : List Char → List Char → List String
  | [], acc => [String.mk acc.reverse]
  | c :: cs, acc =>
    if c = '\n' then String.mk acc.reverse :: splitLinesAux cs []
    else splitLinesAux cs (c :: acc)

/-- JavaScript `text.split('\n')`: every newline separates, a trailing
newline yields a final empty element, and the empty string yields
`[""]`. -/
def splitLines (text : String) : List String := splitLinesAux text.toList []

/-- The diff parser `parseDiff(diffText)`; `none` models a null or
undefined argument, and the empty string is falsy as in the source. -/
def parseDiff : Option String → List FileChange
  | none => []
  | some text =>
    if text = "" then []
    else
      let st := (splitLines text).foldl parseLine ⟨[], none, none⟩
      match st.currentFile with
      | some f => st.files ++ [closeHunk f st.currentHunk]
      | none => st.files

/-- Side kind carried by a change-row cell (source field `type`):
`'delete'` on the left, `'add'` on the right. -/
inductive CellType where
  | delete
  | add
deriving DecidableEq, Repr

/-- One side of a split-view row: `{ num, content }`, with the optional
`type` tag present only on change cells. -/
structure Cell where
  num : Nat
  content : String
  ctype : Option CellType
deriving DecidableEq, Repr

/-- Kind of a split-view row (source field `type`): `'context' | 'change'`. -/
inductive RowKind where
  | context
  | change
deriving DecidableEq, Repr

/-- One split-view row: `{ type, left, right }` with nullable sides. -/
structure Row where
  kind : RowKind
  left : Option Cell
  right : Option Cell
deriving DecidableEq, Repr

/-- Test from the merge scan: the row has a left cell and that cell is
of delete kind. -/
def leftIsDelete (r : Row) : Bool :=
  match r.left with
  | some c => c.ctype = some CellType.delete
  | none => false

/-- The backward merge scan of `SplitHunk` for an add line: the source
walks `rows` from the last index downwards, breaking at the first
context row, and fills the first row found with a left delete and a
null right.  `rows` here is kept most-recent-first, so the downward
walk is structural recursion; `none` means no merge happened. -/
def fillRight (cell : Cell) : List Row → Option (List Row)
  | [] => none
  | r :: rs =>
    if r.kind = RowKind.context then none
    else if leftIsDelete r ∧ r.right = none then
      some ({ r with right := some cell } :: rs)
    else
      match fillRight cell rs with
      | some rs2 => some (r :: rs2)
      | none => none

/-- Reconciler loop state: emitted rows (most recent first) and the two
line counters `oldLineCounter` / `newLineCounter`. -/
structure RState where
  rows : List Row
  oldLine : Nat
  newLine : Nat
deriving DecidableEq, Repr

/-- One iteration of the `SplitHunk` loop body on one hunk line. -/
def stepLine (st : RState) (l : DiffLine) : RState :=
  match l.kind with
  | LineType.context =>
    { rows := { kind := RowKind.context,
                left := some ⟨st.oldLine, l.content, none⟩,
                right := some ⟨st.newLine, l.content, none⟩ } :: st.rows,
      oldLine := st.oldLine + 1,
      newLine := st.newLine + 1 }
  | LineType.delete =>
    { rows := { kind := RowKind.change,
                left := some ⟨st.oldLine, l.content, some CellType.delete⟩,
                right := none } :: st.rows,
      oldLine := st.oldLine + 1,
      newLine := st.newLine }
  | LineType.add =>
    let cell : Cell := ⟨st.newLine, l.content, some CellType.add⟩
    { rows :=
        match fillRight cell st.rows with
        | some rs => rs
        | none => { kind := RowKind.change, left := none, right := some cell } :: st.rows,
      oldLine := st.oldLine,
      newLine := st.newLine + 1 }
  | LineType.noNewline => st

/-- The row sequence computed by the `SplitHunk` component for one hunk,
in emission order. -/
def SplitHunk (h : Hunk) : List Row :=
  ((h.lines.foldl stepLine ⟨[], h.oldStart, h.newStart⟩).rows).reverse

/-- The `SplitHunk` loop with its index counter `i` made explicit and the
hunk carried inside the mutable state, so that the absence of any write
to the hunk is a provable fact rather than a modelling assumption. -/
def runSplit (i : Nat) (sh : RState × Hunk) : RState × Hunk :=
  if hlt : i < sh.2.lines.length then
    runSplit (i + 1) (stepLine sh.1 (sh.2.lines.get ⟨i, hlt⟩), sh.2)
  else sh
termination_by sh.2.lines.length - i

/-- The reconciler run through the state-threaded loop: returns the row
sequence together with the hunk as it stands after the call. -/
def reconcileM (h : Hunk) : List Row × Hunk :=
  let r := runSplit 0 (⟨[], h.oldStart, h.newStart⟩, h)
  (r.1.rows.reverse, r.2)

/-- A delete-kind diff line with the given content. -/
def mkDelLine (c : String) : DiffLine := ⟨c, LineType.delete⟩

/-- An add-kind diff line with the given content. -/
def mkAddLine (c : String) : DiffLine := ⟨c, LineType.add⟩

/-- The row that `SplitHunk` emits for a delete line at old line `o`. -/
def delRow (o : Nat) (c : String) : Row :=
  ⟨RowKind.change, some ⟨o, c, some CellType.delete⟩, none⟩

/-- The rows emitted for a block of delete lines starting at old line `o`,
in emission order. -/
def deleteRowList : List String → Nat → List Row
  | [], _ => []
  | c :: cs, o => delRow o c :: deleteRowList cs (o + 1)

/-- The right-side cells produced for a block of add lines starting at
new line `n`. -/
def addCells : Nat → List String → List Cell
  | _, [] => []
  | n, c :: cs => ⟨n, c, some CellType.add⟩ :: addCells (n + 1) cs

/-- Fill the right slot of a row with an add cell, as the merge does. -/
def fillRow (r : Row) (cell : Cell) : Row := { r with right := some cell }

/-- Whether a diff line is a delete line. -/
def isDeleteLine (l : DiffLine) : Bool :=
  match l.kind with
  | LineType.delete => true
  | _ => false

/-- Whether a diff line is an add line. -/
def isAddLine (l : DiffLine) : Bool :=
  match l.kind with
  | LineType.add => true
  | _ => false

/-- The content of a row's left cell when that cell is a delete cell. -/
def leftDelContent (r : Row) : Option String :=
  match r.left with
  | some c => if c.ctype = some CellType.delete then some c.content else none
  | none => none

/-- The content of a row's right cell when that cell is an add cell. -/
def rightAddContent (r : Row) : Option String :=
  match r.right with
  | some c => if c.ctype = some CellType.add then some c.content else none
  | none => none

/-- The Row invariant of the data model: a context row carries both
sides with identical content, a change row carries at least one side. -/
def RowOK (r : Row) : Prop :=
  (r.kind = RowKind.context →
    ∃ lc rc, r.left = some lc ∧ r.right = some rc ∧ lc.content = rc.content) ∧
  (r.kind = RowKind.change → r.left ≠ none ∨ r.right ≠ none)

theorem startsChars_ne_head {cs : List Char} {p q : Char} {ps qs : List Char}
    (hp : startsChars (p :: ps) cs = true) (hne : q ≠ p) :
    startsChars (q :: qs) cs = false := by
  cases cs with
  | nil => simp [startsChars] at hp
  | cons c rest =>
    simp only [startsChars] at hp ⊢
    by_cases hqc : q = c
    · subst hqc
      by_cases hpc : p = q
      · exact absurd hpc.symm hne
      · simp [hpc] at hp
    · simp [hqc]

theorem not_git_of_dashes {line : String} (h : strStarts line "--- a/" = true) :
    strStarts line "diff --git" = false := by
  unfold strStarts at h ⊢
  rw [show "--- a/".toList = '-' :: ['-', '-', ' ', 'a', '/'] from rfl] at h
  rw [show "diff --git".toList = 'd' :: ['i', 'f', 'f', ' ', '-', '-', 'g', 'i', 't'] from rfl]
  exact startsChars_ne_head h (by decide)

theorem not_git_of_pluses {line : String} (h : strStarts line "+++ b/" = true) :
    strStarts line "diff --git" = false := by
  unfold strStarts at h ⊢
  rw [show "+++ b/".toList = '+' :: ['+', '+', ' ', 'b', '/'] from rfl] at h
  rw [show "diff --git".toList = 'd' :: ['i', 'f', 'f', ' ', '-', '-', 'g', 'i', 't'] from rfl]
  exact startsChars_ne_head h (by decide)

theorem not_dashes_of_pluses {line : String} (h : strStarts line "+++ b/" = true) :
    strStarts line "--- a/" = false := by
  unfold strStarts at h ⊢
  rw [show "+++ b/".toList = '+' :: ['+', '+', ' ', 'b', '/'] from rfl] at h
  rw [show "--- a/".toList = '-' :: ['-', '-', ' ', 'a', '/'] from rfl]
  exact startsChars_ne_head h (by decide)

theorem not_git_of_ats {line : String} (h : strStarts line "@@ " = true) :
    strStarts line "diff --git" = false := by
  unfold strStarts at h ⊢
  rw [show "@@ ".toList = '@' :: ['@', ' '] from rfl] at h
  rw [show "diff --git".toList = 'd' :: ['i', 'f', 'f', ' ', '-', '-', 'g', 'i', 't'] from rfl]
  exact startsChars_ne_head h (by decide)

theorem not_dashes_of_ats {line : String} (h : strStarts line "@@ " = true) :
    strStarts line "--- a/" = false := by
  unfold strStarts at h ⊢
  rw [show "@@ ".toList = '@' :: ['@', ' '] from rfl] at h
  rw [show "--- a/".toList = '-' :: ['-', '-', ' ', 'a', '/'] from rfl]
  exact startsChars_ne_head h (by decide)

theorem not_pluses_of_ats {line : String} (h : strStarts line "@@ " = true) :
    strStarts line "+++ b/" = false := by
  unfold strStarts at h ⊢
  rw [show "@@ ".toList = '@' :: ['@', ' '] from rfl] at h
  rw [show "+++ b/".toList = '+' :: ['+', '+', ' ', 'b', '/'] from rfl]
  exact startsChars_ne_head h (by decide)

theorem parseLine_no_file {st : PState} {line : String}
    (h1 : st.currentFile = none)
    (h2 : strStarts line "diff --git" = false) :
    parseLine st line = st := by
  unfold parseLine
  simp only [h2, Bool.false_eq_true, if_false]
  by_cases c2 : strStarts line "--- a/" = true
  · simp [c2, h1]
  · simp only [c2, if_false]
    by_cases c3 : strStarts line "+++ b/" = true
    · simp [c3, h1]
    · simp only [c3, if_false]
      by_cases c4 : strStarts line "@@ " = true
      · simp [c4, h1]
      · simp [c4, h1]

theorem foldl_parseLine_no_git :
    ∀ (lines : List String) (st : PState), st.currentFile = none →
      (∀ l ∈ lines, strStarts l "diff --git" = false) →
      lines.foldl parseLine st = st := by
  intro lines
  induction lines with
  | nil => intro st _ _; rfl
  | cons l ls ih =>
    intro st h1 h2
    have hstep : parseLine st l = st :=
      parseLine_no_file h1 (h2 l (List.mem_cons_self l ls))
    simp only [List.foldl_cons, hstep]
    exact ih st h1 (fun x hx => h2 x (List.mem_cons_of_mem l hx))

/-- C7: an input with no line starting with `diff --git` — including
null and the empty string — parses to the empty file sequence. -/
theorem C7_no_git_header_empty :
    parseDiff none = [] ∧
    ∀ text : String,
      (∀ l ∈ splitLines text, strStarts l "diff --git" = false) →
      parseDiff (some text) = [] := by
  refine ⟨rfl, ?_⟩
  intro text h
  unfold parseDiff
  by_cases he : text = ""
  · simp [he]
  · simp only [he, if_false]
    rw [foldl_parseLine_no_git (splitLines text) ⟨[], none, none⟩ rfl h]

theorem C7_no_git_header_empty_witness :
    (∀ l ∈ splitLines "hello\nworld", strStarts l "diff --git" = false) ∧
    parseDiff (some "hello\nworld") = [] :=
  ⟨by decide, C7_no_git_header_empty.2 "hello\nworld" (by decide)⟩

/-- C3 counterexample: on the scenario input the parsed hunk does not
consist of three lines of kinds delete, add, context — the trailing
newline contributes a fourth, empty context line. -/
theorem C3_counterexample :
    (parseDiff (some "diff --git a/x.txt b/x.txt\n--- a/x.txt\n+++ b/x.txt\n@@ -1,2 +1,2 @@\n-old\n+new\n context\n")).map
        (fun f => f.hunks.map (fun h => h.lines.map DiffLine.kind))
      ≠ [[[LineType.delete, LineType.add, LineType.context]]] := by
  decide

/-- C3 amended: the scenario input parses to one FileChange with
oldPath = newPath = "x.txt" and one hunk with starts 1, 1, whose lines
have kinds delete, add, context, context — the final context line being
the empty string produced by the trailing newline. -/
theorem C3_scenario_parse :
    parseDiff (some "diff --git a/x.txt b/x.txt\n--- a/x.txt\n+++ b/x.txt\n@@ -1,2 +1,2 @@\n-old\n+new\n context\n")
      = [⟨"diff --git a/x.txt b/x.txt", "x.txt", "x.txt", [],
          [⟨"@@ -1,2 +1,2 @@",
            [⟨"-old", LineType.delete⟩, ⟨"+new", LineType.add⟩,
             ⟨" context", LineType.context⟩, ⟨"", LineType.context⟩],
            1, 1⟩]⟩] := by
  decide

/-- C2 counterexample: a second `--- a/` (resp. `+++ b/`) line for the
same file is not ignored — it overwrites the stored path, so the final
values come from the last such lines, not the first. -/
theorem C2_counterexample :
    (parseDiff (some "diff --git a/x b/x\n--- a/p\n--- a/q\n+++ b/r\n+++ b/t")).map
        (fun f => (f.oldName, f.newName))
      = [("q", "t")] ∧ ("q", "t") ≠ ("p", "r") := by
  exact ⟨by decide, by decide⟩

/-- C2 amended: while a file is open, every `--- a/` line sets its
oldPath (a later one overwrites an earlier one, the last wins), and
symmetrically every `+++ b/` line sets its newPath. -/
theorem C2_path_overwrite :
    ∀ (st : PState) (f : FileChange) (line : String),
      st.currentFile = some f →
      (strStarts line "--- a/" = true →
        parseLine st line = { st with currentFile := some { f with oldName := strDrop line 6 } }) ∧
      (strStarts line "+++ b/" = true →
        parseLine st line = { st with currentFile := some { f with newName := strDrop line 6 } }) := by
  intro st f line hf
  constructor
  · intro h2
    unfold parseLine
    simp [not_git_of_dashes h2, h2, hf]
  · intro h3
    unfold parseLine
    simp [not_git_of_pluses h3, not_dashes_of_pluses h3, h3, hf]

theorem C2_path_overwrite_witness :
    (PState.mk [] (some ⟨"diff --git a/x b/x", "p", "", [], []⟩) none).currentFile
        = some ⟨"diff --git a/x b/x", "p", "", [], []⟩ ∧
    strStarts "--- a/q" "--- a/" = true ∧
    parseLine ⟨[], some ⟨"diff --git a/x b/x", "p", "", [], []⟩, none⟩ "--- a/q"
      = ⟨[], some ⟨"diff --git a/x b/x", "q", "", [], []⟩, none⟩ :=
  ⟨rfl, by decide,
    (C2_path_overwrite ⟨[], some ⟨"diff --git a/x b/x", "p", "", [], []⟩, none⟩
      ⟨"diff --git a/x b/x", "p", "", [], []⟩ "--- a/q" rfl).1 (by decide)⟩

/-- C6: a line starting `@@ ` that the hunk-header pattern does not
match still opens a new hunk, with both start numbers defaulted to 0,
and the parser state remains well formed so parsing continues. -/
theorem C6_malformed_hunk_header :
    ∀ (st : PState) (f : FileChange) (line : String),
      st.currentFile = some f →
      strStarts line "@@ " = true →
      hunkMatch line = none →
      parseLine st line =
        { files := st.files,
          currentFile := some (closeHunk f st.currentHunk),
          currentHunk := some ⟨line, [], 0, 0⟩ } := by
  intro st f line hf hat hm
  unfold parseLine
  simp [not_git_of_ats hat, not_dashes_of_ats hat, not_pluses_of_ats hat, hat, hf, hm]

theorem C6_malformed_hunk_header_witness :
    strStarts "@@ not a header" "@@ " = true ∧
    hunkMatch "@@ not a header" = none ∧
    parseLine ⟨[], some ⟨"diff --git a/x b/x", "", "", [], []⟩, none⟩ "@@ not a header"
      = ⟨[], some ⟨"diff --git a/x b/x", "", "", [], []⟩,
          some ⟨"@@ not a header", [], 0, 0⟩⟩ :=
  ⟨by decide, by decide,
    C6_malformed_hunk_header ⟨[], some ⟨"diff --git a/x b/x", "", "", [], []⟩, none⟩
      ⟨"diff --git a/x b/x", "", "", [], []⟩ "@@ not a header" rfl (by decide) (by decide)⟩

theorem fillRight_context_stop (cell : Cell) (r : Row) (rs : List Row)
    (h : r.kind = RowKind.context) : fillRight cell (r :: rs) = none := by
  simp [fillRight, h]

theorem fillRight_fill (cell : Cell) (r : Row) (rs : List Row)
    (h1 : r.kind ≠ RowKind.context) (h2 : leftIsDelete r = true) (h3 : r.right = none) :
    fillRight cell (r :: rs) = some ({ r with right := some cell } :: rs) := by
  simp [fillRight, h1, h2, h3]

theorem fillRight_skip (cell : Cell) (r : Row) (rs : List Row)
    (h1 : r.kind ≠ RowKind.context) (h2 : ¬(leftIsDelete r = true ∧ r.right = none)) :
    fillRight cell (r :: rs) = (fillRight cell rs).map (fun l => r :: l) := by
  simp only [fillRight, h1, if_false, h2]
  cases fillRight cell rs <;> simp

/-- C5: the backward merge scan stops, without merging, at the first
context row; in particular the hunk `-A`, ` B`, `+C` reconciles to an
unpaired delete row, a context row and an unpaired add row. -/
theorem C5_context_blocks_merge :
    (∀ (cell : Cell) (r : Row) (rs : List Row), r.kind = RowKind.context →
        fillRight cell (r :: rs) = none) ∧
    (∀ (hdr : String) (o n : Nat),
      SplitHunk ⟨hdr, [⟨"-A", LineType.delete⟩, ⟨" B", LineType.context⟩,
                       ⟨"+C", LineType.add⟩], o, n⟩
        = [⟨RowKind.change, some ⟨o, "-A", some CellType.delete⟩, none⟩,
           ⟨RowKind.context, some ⟨o + 1, " B", none⟩, some ⟨n, " B", none⟩⟩,
           ⟨RowKind.change, none, some ⟨n + 1, "+C", some CellType.add⟩⟩]) := by
  constructor
  · intro cell r rs h
    exact fillRight_context_stop cell r rs h
  · intro hdr o n
    rfl

theorem C5_context_blocks_merge_witness :
    ((⟨RowKind.context, some ⟨1, " B", none⟩, some ⟨1, " B", none⟩⟩ : Row).kind
        = RowKind.context ∧
      fillRight ⟨5, "+C", some CellType.add⟩
          [⟨RowKind.context, some ⟨1, " B", none⟩, some ⟨1, " B", none⟩⟩] = none) ∧
    SplitHunk ⟨"@@ -1 +1 @@", [⟨"-A", LineType.delete⟩, ⟨" B", LineType.context⟩,
                              ⟨"+C", LineType.add⟩], 1, 1⟩
      = [⟨RowKind.change, some ⟨1, "-A", some CellType.delete⟩, none⟩,
         ⟨RowKind.context, some ⟨1 + 1, " B", none⟩, some ⟨1, " B", none⟩⟩,
         ⟨RowKind.change, none, some ⟨1 + 1, "+C", some CellType.add⟩⟩] :=
  ⟨⟨rfl, C5_context_blocks_merge.1 ⟨5, "+C", some CellType.add⟩
      ⟨RowKind.context, some ⟨1, " B", none⟩, some ⟨1, " B", none⟩⟩ [] rfl⟩,
    C5_context_blocks_merge.2 "@@ -1 +1 @@" 1 1⟩

theorem fillRight_preserves_OK :
    ∀ (rows : List Row) (cell : Cell) (rows2 : List Row),
      fillRight cell rows = some rows2 →
      (∀ r ∈ rows, RowOK r) → ∀ r ∈ rows2, RowOK r := by
  intro rows
  induction rows with
  | nil => intro cell rows2 hf; simp [fillRight] at hf
  | cons a as ih =>
    intro cell rows2 hf hOK
    by_cases h1 : a.kind = RowKind.context
    · rw [fillRight_context_stop cell a as h1] at hf
      exact absurd hf (by simp)
    · by_cases h2 : leftIsDelete a = true ∧ a.right = none
      · rw [fillRight_fill cell a as h1 h2.1 h2.2] at hf
        have hr2 : ({ a with right := some cell } :: as) = rows2 := by
          exact Option.some.inj hf
        subst hr2
        intro r hr
        rcases List.mem_cons.mp hr with hr | hr
        · subst hr
          refine ⟨fun hctx => absurd hctx h1, fun _ => Or.inr (by simp)⟩
        · exact hOK r (List.mem_cons_of_mem a hr)
      · rw [fillRight_skip cell a as h1 h2] at hf
        cases hfa : fillRight cell as with
        | none =>
          rw [hfa] at hf
          exact absurd hf (by simp)
        | some l =>
          rw [hfa] at hf
          have hf2 : a :: l = rows2 := Option.some.inj hf
          subst hf2
          intro r hr
          rcases List.mem_cons.mp hr with hr | hr
          · rw [hr]; exact hOK a (List.mem_cons_self a as)
          · exact ih cell l hfa (fun x hx => hOK x (List.mem_cons_of_mem a hx)) r hr

theorem stepLine_preserves_OK (st : RState) (l : DiffLine)
    (h : ∀ r ∈ st.rows, RowOK r) : ∀ r ∈ (stepLine st l).rows, RowOK r := by
  cases hk : l.kind with
  | context =>
    simp only [stepLine, hk]
    intro r hr
    rcases List.mem_cons.mp hr with hr | hr
    · subst hr
      exact ⟨fun _ => ⟨⟨st.oldLine, l.content, none⟩, ⟨st.newLine, l.content, none⟩,
        rfl, rfl, rfl⟩, fun hch => by simp at hch⟩
    · exact h r hr
  | delete =>
    simp only [stepLine, hk]
    intro r hr
    rcases List.mem_cons.mp hr with hr | hr
    · subst hr
      exact ⟨fun hctx => by simp at hctx, fun _ => Or.inl (by simp)⟩
    · exact h r hr
  | add =>
    simp only [stepLine, hk]
    cases hfa : fillRight ⟨st.newLine, l.content, some CellType.add⟩ st.rows with
    | some rs =>
      simp only [hfa]
      exact fillRight_preserves_OK st.rows _ rs hfa h
    | none =>
      simp only [hfa]
      intro r hr
      rcases List.mem_cons.mp hr with hr | hr
      · subst hr
        exact ⟨fun hctx => by simp at hctx, fun _ => Or.inr (by simp)⟩
      · exact h r hr
  | noNewline =>
    simp only [stepLine, hk]
    exact h

theorem foldl_stepLine_OK :
    ∀ (lines : List DiffLine) (st : RState),
      (∀ r ∈ st.rows, RowOK r) → ∀ r ∈ (lines.foldl stepLine st).rows, RowOK r := by
  intro lines
  induction lines with
  | nil => intro st h; exact h
  | cons l ls ih =>
    intro st h
    simp only [List.foldl_cons]
    exact ih _ (stepLine_preserves_OK st l h)

/-- C8: every row produced by the reconciler satisfies the Row
invariant — context rows carry both sides with identical content,
change rows carry at least one side. -/
theorem C8_row_invariant : ∀ (h : Hunk) (r : Row), r ∈ SplitHunk h → RowOK r := by
  intro h r hr
  unfold SplitHunk at hr
  rw [List.mem_reverse] at hr
  exact foldl_stepLine_OK h.lines ⟨[], h.oldStart, h.newStart⟩ (by simp) r hr

theorem C8_row_invariant_witness :
    (⟨RowKind.context, some ⟨1, " B", none⟩, some ⟨2, " B", none⟩⟩ : Row) ∈
        SplitHunk ⟨"h", [⟨" B", LineType.context⟩], 1, 2⟩ ∧
    RowOK ⟨RowKind.context, some ⟨1, " B", none⟩, some ⟨2, " B", none⟩⟩ :=
  ⟨by decide, C8_row_invariant ⟨"h", [⟨" B", LineType.context⟩], 1, 2⟩
    ⟨RowKind.context, some ⟨1, " B", none⟩, some ⟨2, " B", none⟩⟩ (by decide)⟩

theorem runSplit_hunk_fixed :
    ∀ (k i : Nat) (sh : RState × Hunk), sh.2.lines.length - i ≤ k →
      (runSplit i sh).2 = sh.2 := by
  intro k
  induction k with
  | zero =>
    intro i sh h
    have hnlt : ¬ i < sh.2.lines.length := by omega
    rw [runSplit]
    simp [hnlt]
  | succ k ih =>
    intro i sh h
    rw [runSplit]
    by_cases hlt : i < sh.2.lines.length
    · simp only [hlt, dif_pos]
      exact ih (i + 1) (stepLine sh.1 (sh.2.lines.get ⟨i, hlt⟩), sh.2) (by simp; omega)
    · simp [hlt]

theorem runSplit_eq_foldl :
    ∀ (k i : Nat) (sh : RState × Hunk), sh.2.lines.length - i ≤ k →
      (runSplit i sh).1 = (sh.2.lines.drop i).foldl stepLine sh.1 := by
  intro k
  induction k with
  | zero =>
    intro i sh h
    have hnlt : ¬ i < sh.2.lines.length := by omega
    rw [runSplit]
    simp only [hnlt, dif_neg, not_false_iff]
    rw [List.drop_eq_nil_of_le (by omega)]
    rfl
  | succ k ih =>
    intro i sh h
    rw [runSplit]
    by_cases hlt : i < sh.2.lines.length
    · simp only [hlt, dif_pos]
      rw [ih (i + 1) (stepLine sh.1 (sh.2.lines.get ⟨i, hlt⟩), sh.2) (by simp; omega)]
      have hdrop : sh.2.lines.drop i = sh.2.lines[i] :: sh.2.lines.drop (i + 1) :=
        List.drop_eq_getElem_cons hlt
      rw [hdrop, List.foldl_cons]
      rfl
    · simp only [hlt, dif_neg, not_false_iff]
      rw [List.drop_eq_nil_of_le (by omega)]
      rfl

/-- C9: the reconciler is pure and deterministic — the hunk comes back
unchanged from the state-threaded loop, a second call on the returned
hunk produces an identical row sequence, and the result agrees with the
functional reconciler. -/
theorem C9_pure_deterministic :
    ∀ h : Hunk,
      (reconcileM h).2 = h ∧
      (reconcileM ((reconcileM h).2)).1 = (reconcileM h).1 ∧
      (reconcileM h).1 = SplitHunk h := by
  intro h
  have h2 : (reconcileM h).2 = h := by
    have : (reconcileM h).2 = (runSplit 0 (⟨[], h.oldStart, h.newStart⟩, h)).2 := rfl
    rw [this,
      runSplit_hunk_fixed h.lines.length 0 (⟨[], h.oldStart, h.newStart⟩, h) (Nat.sub_le _ _)]
  refine ⟨h2, by rw [h2], ?_⟩
  have h3 : (reconcileM h).1
      = (runSplit 0 (⟨[], h.oldStart, h.newStart⟩, h)).1.rows.reverse := rfl
  unfold SplitHunk
  rw [h3,
    runSplit_eq_foldl h.lines.length 0 (⟨[], h.oldStart, h.newStart⟩, h) (Nat.sub_le _ _)]
  rw [List.drop_zero]

theorem fillRight_leftDel :
    ∀ (rows : List Row) (cell : Cell) (rows2 : List Row),
      fillRight cell rows = some rows2 →
      rows2.filterMap leftDelContent = rows.filterMap leftDelContent := by
  intro rows
  induction rows with
  | nil => intro cell rows2 hf; simp [fillRight] at hf
  | cons a as ih =>
    intro cell rows2 hf
    by_cases h1 : a.kind = RowKind.context
    · rw [fillRight_context_stop cell a as h1] at hf
      exact absurd hf (by simp)
    · by_cases h2 : leftIsDelete a = true ∧ a.right = none
      · rw [fillRight_fill cell a as h1 h2.1 h2.2] at hf
        have hr2 : ({ a with right := some cell } :: as) = rows2 := Option.some.inj hf
        subst hr2
        have hsame : leftDelContent { a with right := some cell } = leftDelContent a := rfl
        simp only [List.filterMap_cons, hsame]
      · rw [fillRight_skip cell a as h1 h2] at hf
        cases hfa : fillRight cell as with
        | none => rw [hfa] at hf; exact absurd hf (by simp)
        | some l =>
          rw [hfa] at hf
          have hf2 : a :: l = rows2 := Option.some.inj hf
          subst hf2
          simp only [List.filterMap_cons, ih cell l hfa]

theorem fillRight_rightAdd :
    ∀ (rows : List Row) (cell : Cell) (rows2 : List Row),
      cell.ctype = some CellType.add →
      fillRight cell rows = some rows2 →
      (rows2.filterMap rightAddContent).Perm
        (cell.content :: rows.filterMap rightAddContent) := by
  intro rows
  induction rows with
  | nil => intro cell rows2 _ hf; simp [fillRight] at hf
  | cons a as ih =>
    intro cell rows2 hc hf
    by_cases h1 : a.kind = RowKind.context
    · rw [fillRight_context_stop cell a as h1] at hf
      exact absurd hf (by simp)
    · by_cases h2 : leftIsDelete a = true ∧ a.right = none
      · rw [fillRight_fill cell a as h1 h2.1 h2.2] at hf
        have hr2 : ({ a with right := some cell } :: as) = rows2 := Option.some.inj hf
        subst hr2
        have hnone : rightAddContent a = none := by
          unfold rightAddContent
          rw [h2.2]
        have hfillc : rightAddContent { a with right := some cell } = some cell.content := by
          unfold rightAddContent
          simp [hc]
        simp only [List.filterMap_cons, hnone, hfillc]
        exact List.Perm.refl _
      · rw [fillRight_skip cell a as h1 h2] at hf
        cases hfa : fillRight cell as with
        | none => rw [hfa] at hf; exact absurd hf (by simp)
        | some l =>
          rw [hfa] at hf
          have hf2 : a :: l = rows2 := Option.some.inj hf
          subst hf2
          have hperm := ih cell l hc hfa
          simp only [List.filterMap_cons]
          cases hra : rightAddContent a with
          | none => exact hperm
          | some s =>
            refine (hperm.cons s).trans ?_
            exact List.Perm.swap cell.content s (as.filterMap rightAddContent)

theorem stepLine_slots (st : RState) (l : DiffLine) :
    ((stepLine st l).rows.filterMap leftDelContent
        = (if isDeleteLine l then [l.content] else [])
          ++ st.rows.filterMap leftDelContent) ∧
    ((stepLine st l).rows.filterMap rightAddContent).Perm
        ((if isAddLine l then [l.content] else [])
          ++ st.rows.filterMap rightAddContent) := by
  cases hk : l.kind with
  | context =>
    have hd : isDeleteLine l = false := by simp [isDeleteLine, hk]
    have ha : isAddLine l = false := by simp [isAddLine, hk]
    have hl : leftDelContent ⟨RowKind.context, some ⟨st.oldLine, l.content, none⟩,
        some ⟨st.newLine, l.content, none⟩⟩ = none := rfl
    have hr : rightAddContent ⟨RowKind.context, some ⟨st.oldLine, l.content, none⟩,
        some ⟨st.newLine, l.content, none⟩⟩ = none := rfl
    constructor
    · simp only [stepLine, hk, List.filterMap_cons, hl, hd]
      simp
    · simp only [stepLine, hk, List.filterMap_cons, hr, ha]
      simp
  | delete =>
    have hd : isDeleteLine l = true := by simp [isDeleteLine, hk]
    have ha : isAddLine l = false := by simp [isAddLine, hk]
    have hl : leftDelContent ⟨RowKind.change,
        some ⟨st.oldLine, l.content, some CellType.delete⟩, none⟩ = some l.content := rfl
    have hr : rightAddContent ⟨RowKind.change,
        some ⟨st.oldLine, l.content, some CellType.delete⟩, none⟩ = none := rfl
    constructor
    · simp only [stepLine, hk, List.filterMap_cons, hl, hd]
      simp
    · simp only [stepLine, hk, List.filterMap_cons, hr, ha]
      simp
  | add =>
    have hd : isDeleteLine l = false := by simp [isDeleteLine, hk]
    have ha : isAddLine l = true := by simp [isAddLine, hk]
    cases hfa : fillRight ⟨st.newLine, l.content, some CellType.add⟩ st.rows with
    | some rs =>
      constructor
      · simp only [stepLine, hk, hfa, hd]
        simp only [fillRight_leftDel st.rows ⟨st.newLine, l.content, some CellType.add⟩ rs hfa]
        simp
      · simp only [stepLine, hk, hfa, ha]
        have := fillRight_rightAdd st.rows ⟨st.newLine, l.content, some CellType.add⟩ rs rfl hfa
        simpa using this
    | none =>
      have hl : leftDelContent ⟨RowKind.change, none,
          some ⟨st.newLine, l.content, some CellType.add⟩⟩ = none := rfl
      have hr : rightAddContent ⟨RowKind.change, none,
          some ⟨st.newLine, l.content, some CellType.add⟩⟩ = some l.content := rfl
      constructor
      · simp only [stepLine, hk, hfa, List.filterMap_cons, hl, hd]
        simp
      · simp only [stepLine, hk, hfa, List.filterMap_cons, hr, ha]
        simp
  | noNewline =>
    have hd : isDeleteLine l = false := by simp [isDeleteLine, hk]
    have ha : isAddLine l = false := by simp [isAddLine, hk]
    constructor
    · simp only [stepLine, hk, hd]
      simp
    · simp only [stepLine, hk, ha]
      simp

theorem foldl_stepLine_slots :
    ∀ (lines : List DiffLine) (st : RState),
      ((lines.foldl stepLine st).rows.filterMap leftDelContent
          = ((lines.filter isDeleteLine).map DiffLine.content).reverse
            ++ st.rows.filterMap leftDelContent) ∧
      ((lines.foldl stepLine st).rows.filterMap rightAddContent).Perm
          (((lines.filter isAddLine).map DiffLine.content)
            ++ st.rows.filterMap rightAddContent) := by
  intro lines
  induction lines with
  | nil =>
    intro st
    exact ⟨by simp, by simp⟩
  | cons l ls ih =>
    intro st
    have hstep := stepLine_slots st l
    have hih := ih (stepLine st l)
    constructor
    · rw [List.foldl_cons, hih.1, hstep.1]
      cases hd : isDeleteLine l <;> simp [List.filter_cons, hd, List.append_assoc]
    · rw [List.foldl_cons]
      refine (hih.2.trans (List.Perm.append_left _ hstep.2)).trans ?_
      cases ha : isAddLine l with
      | false => simp [List.filter_cons, ha]
      | true =>
        rw [show (if true = true then [l.content] else []) = [l.content] from rfl]
        rw [show List.filter isAddLine (l :: ls) = l :: List.filter isAddLine ls by
          simp [List.filter_cons, ha]]
        simp only [List.nil_append, List.cons_append, List.map_cons]
        exact List.perm_middle

/-- C10: every delete line contributes the left slot of exactly one row,
in input order, and the multiset of filled right add slots is exactly
the multiset of add lines — an add fills one slot and no filled slot is
ever overwritten. -/
theorem C10_slot_accounting :
    ∀ h : Hunk,
      (SplitHunk h).filterMap leftDelContent
          = (h.lines.filter isDeleteLine).map DiffLine.content ∧
      ((SplitHunk h).filterMap rightAddContent).Perm
          ((h.lines.filter isAddLine).map DiffLine.content) := by
  intro h
  have hmain := foldl_stepLine_slots h.lines ⟨[], h.oldStart, h.newStart⟩
  constructor
  · unfold SplitHunk
    rw [List.filterMap_reverse, hmain.1]
    simp
  · unfold SplitHunk
    rw [List.filterMap_reverse]
    refine (List.reverse_perm _).trans ?_
    simpa using hmain.2

theorem foldl_stepLine_deletes :
    ∀ (ds : List String) (st : RState),
      (ds.map mkDelLine).foldl stepLine st
        = ⟨(deleteRowList ds st.oldLine).reverse ++ st.rows,
            st.oldLine + ds.length, st.newLine⟩ := by
  intro ds
  induction ds with
  | nil => intro st; simp [deleteRowList]
  | cons c cs ih =>
    intro st
    have hstep : stepLine st (mkDelLine c)
        = ⟨delRow st.oldLine c :: st.rows, st.oldLine + 1, st.newLine⟩ := rfl
    rw [List.map_cons, List.foldl_cons, hstep, ih]
    simp [deleteRowList, List.append_assoc]
    omega

theorem deleteRowList_length : ∀ (ds : List String) (o : Nat),
    (deleteRowList ds o).length = ds.length := by
  intro ds
  induction ds with
  | nil => intro o; rfl
  | cons c cs ih => intro o; simp [deleteRowList, ih]

theorem deleteRowList_mem : ∀ (ds : List String) (o : Nat) (r : Row),
    r ∈ deleteRowList ds o → ∃ o2 c, r = delRow o2 c := by
  intro ds
  induction ds with
  | nil => intro o r hr; simp [deleteRowList] at hr
  | cons c cs ih =>
    intro o r hr
    rcases List.mem_cons.mp hr with hr | hr
    · exact ⟨o, c, hr⟩
    · exact ih (o + 1) r hr

theorem addCells_length : ∀ (n : Nat) (as : List String),
    (addCells n as).length = as.length := by
  intro n as
  induction as generalizing n with
  | nil => rfl
  | cons c cs ih => simp [addCells, ih]

theorem addCells_mem : ∀ (n : Nat) (as : List String) (y : Cell),
    y ∈ addCells n as → y.ctype = some CellType.add := by
  intro n as
  induction as generalizing n with
  | nil => intro y hy; simp [addCells] at hy
  | cons c cs ih =>
    intro y hy
    rcases List.mem_cons.mp hy with hy | hy
    · rw [hy]
    · exact ih (n + 1) y hy

theorem fillRight_skip_front :
    ∀ (pre rest : List Row) (cell : Cell),
      (∀ r ∈ pre, r.kind ≠ RowKind.context ∧ r.right ≠ none) →
      fillRight cell (pre ++ rest) = (fillRight cell rest).map (fun l => pre ++ l) := by
  intro pre
  induction pre with
  | nil =>
    intro rest cell _
    simp only [List.nil_append]
    cases fillRight cell rest <;> simp
  | cons a as ih =>
    intro rest cell hpre
    have ha := hpre a (List.mem_cons_self a as)
    have h2 : ¬(leftIsDelete a = true ∧ a.right = none) := by
      intro hcon
      exact ha.2 hcon.2
    rw [List.cons_append, fillRight_skip cell a (as ++ rest) ha.1 h2,
      ih rest cell (fun x hx => hpre x (List.mem_cons_of_mem a hx))]
    cases fillRight cell rest <;> simp

theorem foldl_stepLine_adds :
    ∀ (as : List String) (pre stk : List Row) (ol nl : Nat),
      (∀ r ∈ pre, r.kind ≠ RowKind.context ∧ r.right ≠ none) →
      (∀ r ∈ stk, r.kind = RowKind.change ∧ leftIsDelete r = true ∧ r.right = none) →
      as.length ≤ stk.length →
      (as.map mkAddLine).foldl stepLine ⟨pre ++ stk, ol, nl⟩
        = ⟨pre ++ stk.zipWith fillRow (addCells nl as) ++ stk.drop as.length,
            ol, nl + as.length⟩ := by
  intro as
  induction as with
  | nil =>
    intro pre stk ol nl _ _ _
    simp [addCells]
  | cons a as2 ih =>
    intro pre stk ol nl hpre hstk hlen
    cases stk with
    | nil => simp at hlen
    | cons s stk2 =>
      have hs := hstk s (List.mem_cons_self s stk2)
      have hsk : s.kind ≠ RowKind.context := by
        rw [hs.1]
        intro hcon
        exact RowKind.noConfusion hcon
      have hfill : fillRight ⟨nl, a, some CellType.add⟩ (pre ++ s :: stk2)
          = some (pre ++ (fillRow s ⟨nl, a, some CellType.add⟩ :: stk2)) := by
        rw [fillRight_skip_front pre (s :: stk2) ⟨nl, a, some CellType.add⟩ hpre,
          fillRight_fill ⟨nl, a, some CellType.add⟩ s stk2 hsk hs.2.1 hs.2.2]
        rfl
      have hstep : stepLine ⟨pre ++ s :: stk2, ol, nl⟩ (mkAddLine a)
          = ⟨pre ++ (fillRow s ⟨nl, a, some CellType.add⟩ :: stk2), ol, nl + 1⟩ := by
        simp only [stepLine, mkAddLine, hfill]
      rw [List.map_cons, List.foldl_cons, hstep]
      have hassoc : pre ++ (fillRow s ⟨nl, a, some CellType.add⟩ :: stk2)
          = (pre ++ [fillRow s ⟨nl, a, some CellType.add⟩]) ++ stk2 := by
        rw [List.append_cons]
      rw [hassoc]
      rw [ih (pre ++ [fillRow s ⟨nl, a, some CellType.add⟩]) stk2 ol (nl + 1)
        (by
          intro r hr
          rcases List.mem_append.mp hr with hr | hr
          · exact hpre r hr
          · rcases List.mem_singleton.mp hr with rfl
            refine ⟨?_, by simp [fillRow]⟩
            show (fillRow s ⟨nl, a, some CellType.add⟩).kind ≠ RowKind.context
            have : (fillRow s ⟨nl, a, some CellType.add⟩).kind = s.kind := rfl
            rw [this, hs.1]
            intro hcon
            exact RowKind.noConfusion hcon)
        (fun r hr => hstk r (List.mem_cons_of_mem s hr))
        (Nat.le_of_succ_le_succ hlen)]
      simp only [addCells, List.zipWith_cons_cons, List.drop_succ_cons]
      rw [List.append_cons pre (fillRow s ⟨nl, a, some CellType.add⟩)]
      simp [List.append_assoc]
      omega

theorem splitHunk_del_add :
    ∀ (hdr : String) (ds as : List String) (o n0 : Nat),
      as.length ≤ ds.length →
      SplitHunk ⟨hdr, ds.map mkDelLine ++ as.map mkAddLine, o, n0⟩
        = ((deleteRowList ds o).reverse.drop as.length).reverse
          ++ ((deleteRowList ds o).reverse.zipWith fillRow (addCells n0 as)).reverse := by
  intro hdr ds as o n0 hle
  unfold SplitHunk
  show ((ds.map mkDelLine ++ as.map mkAddLine).foldl stepLine ⟨[], o, n0⟩).rows.reverse = _
  rw [List.foldl_append, foldl_stepLine_deletes]
  have hrw : (⟨(deleteRowList ds o).reverse ++ [], o + ds.length, n0⟩ : RState)
      = ⟨[] ++ (deleteRowList ds o).reverse, o + ds.length, n0⟩ := by simp
  rw [hrw, foldl_stepLine_adds as [] ((deleteRowList ds o).reverse) (o + ds.length) n0
    (by intro r hr; simp at hr)
    (by
      intro r hr
      rw [List.mem_reverse] at hr
      obtain ⟨o2, c, rfl⟩ := deleteRowList_mem ds o r hr
      exact ⟨rfl, rfl, rfl⟩)
    (by rw [List.length_reverse, deleteRowList_length]; exact hle)]
  simp [List.reverse_append]

theorem mem_zipWith_fillRow :
    ∀ (l1 : List Row) (l2 : List Cell) (r : Row),
      r ∈ l1.zipWith fillRow l2 → ∃ x, x ∈ l1 ∧ ∃ y, y ∈ l2 ∧ r = fillRow x y := by
  intro l1
  induction l1 with
  | nil => intro l2 r hr; simp at hr
  | cons x xs ih =>
    intro l2 r hr
    cases l2 with
    | nil => simp at hr
    | cons y ys =>
      rw [List.zipWith_cons_cons] at hr
      rcases List.mem_cons.mp hr with hr | hr
      · exact ⟨x, List.mem_cons_self x xs, y, List.mem_cons_self y ys, hr⟩
      · obtain ⟨x2, hx2, y2, hy2, hr2⟩ := ih ys r hr
        exact ⟨x2, List.mem_cons_of_mem x hx2, y2, List.mem_cons_of_mem y hy2, hr2⟩

/-- C1 counterexample: on two deletes followed by one add, the single
add pairs with the LAST delete row, not the first — the first row has
`right = null` and the second is fully paired, refuting "the first `n`
rows are fully paired". -/
theorem C1_counterexample :
    (SplitHunk ⟨"h", [mkDelLine "-A", mkDelLine "-B", mkAddLine "+C"], 1, 1⟩).map Row.right
        = [none, some ⟨1, "+C", some CellType.add⟩] ∧
    ¬ ∃ rc, (SplitHunk ⟨"h", [mkDelLine "-A", mkDelLine "-B", mkAddLine "+C"], 1, 1⟩).map Row.right
        = [some rc, none] := by
  refine ⟨by decide, ?_⟩
  intro ⟨rc, hrc⟩
  rw [show (SplitHunk ⟨"h", [mkDelLine "-A", mkDelLine "-B", mkAddLine "+C"], 1, 1⟩).map Row.right
      = [none, some ⟨1, "+C", some CellType.add⟩] from by decide] at hrc
  exact Option.noConfusion (List.cons.inj hrc).1

/-- C1 amended: on `m` deletes followed by `n` adds with `m > n`, the
reconciler emits exactly `m` change rows; the FIRST `m - n` rows (in
emission order) have `right = null` with a left delete, and the LAST
`n` rows are fully paired with a left delete and a right add. -/
theorem C1_change_rows_last_paired :
    ∀ (hdr : String) (ds as : List String) (o n0 : Nat),
      as.length < ds.length →
      (SplitHunk ⟨hdr, ds.map mkDelLine ++ as.map mkAddLine, o, n0⟩).length = ds.length ∧
      (∀ r ∈ SplitHunk ⟨hdr, ds.map mkDelLine ++ as.map mkAddLine, o, n0⟩,
        r.kind = RowKind.change) ∧
      (∀ i, i < ds.length - as.length →
        ∃ r, (SplitHunk ⟨hdr, ds.map mkDelLine ++ as.map mkAddLine, o, n0⟩)[i]? = some r ∧
          r.right = none ∧ ∃ lc, r.left = some lc ∧ lc.ctype = some CellType.delete) ∧
      (∀ i, ds.length - as.length ≤ i → i < ds.length →
        ∃ r, (SplitHunk ⟨hdr, ds.map mkDelLine ++ as.map mkAddLine, o, n0⟩)[i]? = some r ∧
          (∃ lc, r.left = some lc ∧ lc.ctype = some CellType.delete) ∧
          (∃ rc, r.right = some rc ∧ rc.ctype = some CellType.add)) := by
  intro hdr ds as o n0 hlt
  rw [splitHunk_del_add hdr ds as o n0 (Nat.le_of_lt hlt)]
  have hDlen : (deleteRowList ds o).length = ds.length := deleteRowList_length ds o
  have hUlen : (((deleteRowList ds o).reverse.drop as.length).reverse).length
      = ds.length - as.length := by
    simp [hDlen]
  have hFlen : (((deleteRowList ds o).reverse.zipWith fillRow (addCells n0 as)).reverse).length
      = as.length := by
    simp [List.length_zipWith, hDlen, addCells_length]
    omega
  have hUmem : ∀ r ∈ ((deleteRowList ds o).reverse.drop as.length).reverse,
      ∃ o2 c, r = delRow o2 c := by
    intro r hr
    rw [List.mem_reverse] at hr
    have h2 := List.drop_subset _ _ hr
    rw [List.mem_reverse] at h2
    exact deleteRowList_mem ds o r h2
  have hFmem : ∀ r ∈ ((deleteRowList ds o).reverse.zipWith fillRow (addCells n0 as)).reverse,
      r.kind = RowKind.change ∧
        (∃ lc, r.left = some lc ∧ lc.ctype = some CellType.delete) ∧
        (∃ rc, r.right = some rc ∧ rc.ctype = some CellType.add) := by
    intro r hr
    rw [List.mem_reverse] at hr
    obtain ⟨x, hx, y, hy, rfl⟩ := mem_zipWith_fillRow _ _ r hr
    rw [List.mem_reverse] at hx
    obtain ⟨o2, c, rfl⟩ := deleteRowList_mem ds o x hx
    have hyc := addCells_mem n0 as y hy
    exact ⟨rfl, ⟨⟨o2, c, some CellType.delete⟩, rfl, rfl⟩, ⟨y, rfl, hyc⟩⟩
  refine ⟨?_, ?_, ?_, ?_⟩
  · rw [List.length_append, hUlen, hFlen]
    omega
  · intro r hr
    rcases List.mem_append.mp hr with hr | hr
    · obtain ⟨o2, c, rfl⟩ := hUmem r hr
      rfl
    · exact (hFmem r hr).1
  · intro i hi
    have hiU : i < (((deleteRowList ds o).reverse.drop as.length).reverse).length := by
      omega
    refine ⟨((deleteRowList ds o).reverse.drop as.length).reverse[i], ?_, ?_, ?_⟩
    · rw [List.getElem?_append_left hiU, List.getElem?_eq_getElem hiU]
    · obtain ⟨o2, c, he⟩ := hUmem _ (List.getElem_mem hiU)
      rw [he]
      rfl
    · obtain ⟨o2, c, he⟩ := hUmem _ (List.getElem_mem hiU)
      rw [he]
      exact ⟨⟨o2, c, some CellType.delete⟩, rfl, rfl⟩
  · intro i hge hi
    have hgeU : (((deleteRowList ds o).reverse.drop as.length).reverse).length ≤ i := by
      omega
    have hiF : i - (((deleteRowList ds o).reverse.drop as.length).reverse).length
        < (((deleteRowList ds o).reverse.zipWith fillRow (addCells n0 as)).reverse).length := by
      omega
    have hmem := hFmem _ (List.getElem_mem hiF)
    refine ⟨_, ?_, hmem.2.1, hmem.2.2⟩
    rw [List.getElem?_append_right hgeU, List.getElem?_eq_getElem hiF]

theorem C1_change_rows_last_paired_witness :
    (["+C"].length < ["-A", "-B"].length) ∧
    ((SplitHunk ⟨"h", ["-A", "-B"].map mkDelLine ++ ["+C"].map mkAddLine, 1, 1⟩).length
        = ["-A", "-B"].length ∧
      (∀ r ∈ SplitHunk ⟨"h", ["-A", "-B"].map mkDelLine ++ ["+C"].map mkAddLine, 1, 1⟩,
        r.kind = RowKind.change) ∧
      (∀ i, i < ["-A", "-B"].length - ["+C"].length →
        ∃ r, (SplitHunk ⟨"h", ["-A", "-B"].map mkDelLine ++ ["+C"].map mkAddLine, 1, 1⟩)[i]?
            = some r ∧
          r.right = none ∧ ∃ lc, r.left = some lc ∧ lc.ctype = some CellType.delete) ∧
      (∀ i, ["-A", "-B"].length - ["+C"].length ≤ i → i < ["-A", "-B"].length →
        ∃ r, (SplitHunk ⟨"h", ["-A", "-B"].map mkDelLine ++ ["+C"].map mkAddLine, 1, 1⟩)[i]?
            = some r ∧
          (∃ lc, r.left = some lc ∧ lc.ctype = some CellType.delete) ∧
          (∃ rc, r.right = some rc ∧ rc.ctype = some CellType.add))) :=
  ⟨by decide, C1_change_rows_last_paired "h" ["-A", "-B"] ["+C"] 1 1 (by decide)⟩

/-- C4: on `k` deletes followed by `k` adds, the reconciler emits
exactly `k` change rows, each fully paired with a left delete and a
right add — no row has a null side. -/
theorem C4_equal_counts_all_paired :
    ∀ (hdr : String) (ds as : List String) (o n0 : Nat),
      as.length = ds.length →
      (SplitHunk ⟨hdr, ds.map mkDelLine ++ as.map mkAddLine, o, n0⟩).length = ds.length ∧
      ∀ r ∈ SplitHunk ⟨hdr, ds.map mkDelLine ++ as.map mkAddLine, o, n0⟩,
        r.kind = RowKind.change ∧
        (∃ lc, r.left = some lc ∧ lc.ctype = some CellType.delete) ∧
        (∃ rc, r.right = some rc ∧ rc.ctype = some CellType.add) := by
  intro hdr ds as o n0 heq
  rw [splitHunk_del_add hdr ds as o n0 (Nat.le_of_eq heq)]
  have hDlen : (deleteRowList ds o).length = ds.length := deleteRowList_length ds o
  have hUnil : (deleteRowList ds o).reverse.drop as.length = [] := by
    apply List.drop_eq_nil_of_le
    rw [List.length_reverse, hDlen, heq]
  rw [hUnil]
  simp only [List.reverse_nil, List.nil_append]
  constructor
  · rw [List.length_reverse, List.length_zipWith, List.length_reverse, hDlen,
      addCells_length, heq]
    exact Nat.min_self ds.length
  · intro r hr
    rw [List.mem_reverse] at hr
    obtain ⟨x, hx, y, hy, rfl⟩ := mem_zipWith_fillRow _ _ r hr
    rw [List.mem_reverse] at hx
    obtain ⟨o2, c, rfl⟩ := deleteRowList_mem ds o x hx
    have hyc := addCells_mem n0 as y hy
    exact ⟨rfl, ⟨⟨o2, c, some CellType.delete⟩, rfl, rfl⟩, ⟨y, rfl, hyc⟩⟩

theorem C4_equal_counts_all_paired_witness :
    (["+C", "+D"].length = ["-A", "-B"].length) ∧
    ((SplitHunk ⟨"h", ["-A", "-B"].map mkDelLine ++ ["+C", "+D"].map mkAddLine, 1, 1⟩).length
        = ["-A", "-B"].length ∧
      ∀ r ∈ SplitHunk ⟨"h", ["-A", "-B"].map mkDelLine ++ ["+C", "+D"].map mkAddLine, 1, 1⟩,
        r.kind = RowKind.change ∧
        (∃ lc, r.left = some lc ∧ lc.ctype = some CellType.delete) ∧
        (∃ rc, r.right = some rc ∧ rc.ctype = some CellType.add)) :=
  ⟨by decide, C4_equal_counts_all_paired "h" ["-A", "-B"] ["+C", "+D"] 1 1 (by decide)⟩

end DiffViewer
